import Mathlib

/-!
Shallow embedding of `pi_arccot.cc`, a Machin-like arccot series evaluator
working on base-2^32 limbs, together with proofs of the specification claims.

Conventions:
* `limb_int` (uint32) values are `Nat`s kept below `2^32`; writes that narrow
  in C++ are modelled with `% 2^32`.
* `limb2_int` (uint64) arithmetic wraps modulo `2^64`; it is modelled with
  explicit `% 2^64` where the source can overflow.
* The accumulator is a `List Nat`, most significant limb first, exactly as the
  `std::vector<limb_int>` in the source.
* Out-of-bounds vector accesses, division by zero and failed assertions are
  undefined/aborting behaviour in C++; the model returns an explicit `UB`
  value through `Except UB`.
-/

set_option maxHeartbeats 1000000
set_option maxRecDepth 100000

/-- Width of a limb in bits (`limb_bits` in the source, uint32 limbs). -/
def limb_bits : Nat := 32

/-- `2^32`, the limb radix. -/
def limbRadix : Nat := 2 ^ 32

/-- Largest value of a limb (`limb_max` in the source). -/
def limb_max : Nat := 2 ^ 32 - 1

/-- Largest accepted series argument (`arg_max = 2^(limb_bits/2) - 1`). -/
def arg_max : Nat := 2 ^ 16 - 1

/-- Block height `H` (rows of series terms per block). -/
def block_height : Nat := 64

/-- Block width `W` (output limbs per outer pass; also integer-part limbs). -/
def block_width : Nat := 64

/-- Kinds of undefined or aborting behaviour the C++ source can exhibit. -/
inductive UB where
  | divZero : UB
  | oob : UB
  | assertFail : UB
  deriving DecidableEq, Repr

deriving instance DecidableEq for Except

/-- Value of a limb vector read as a base-2^32 big integer, most significant
limb first (the accumulator convention of the source). -/
def limbsVal : List Nat → Nat
  | [] => 0
  | x :: xs => x * 2 ^ (32 * xs.length) + limbsVal xs

/-- All limbs of the list are in range for `limb_int`. -/
def limbsWf (l : List Nat) : Prop := ∀ x ∈ l, x < 2 ^ 32

instance limbsWf_decidable (l : List Nat) : Decidable (limbsWf l) := by
  unfold limbsWf; infer_instance

/-! ### `accumulate` (signed delta addition with carry/borrow propagation) -/

/-- Carry-propagating addition loop of `accumulate` for `delta >= 0`
(`while (d != 0) { d += a[off]; a[off] = d; d >>= 32; off--; }`).
Walking past limb 0 with a nonzero carry is an out-of-bounds access. -/
def addLoop : List Nat → Nat → Nat → Except UB (List Nat)
  | acc, d, 0 =>
    if d = 0 then .ok acc
    else if 0 < acc.length then
      if (d + acc.getD 0 0) / 2 ^ 32 = 0 then .ok (acc.set 0 ((d + acc.getD 0 0) % 2 ^ 32))
      else .error .oob
    else .error .oob
  | acc, d, o + 1 =>
    if d = 0 then .ok acc
    else if o + 1 < acc.length then
      addLoop (acc.set (o + 1) ((d + acc.getD (o + 1) 0) % 2 ^ 32))
        ((d + acc.getD (o + 1) 0) / 2 ^ 32) o
    else .error .oob

/-- Borrow-propagating subtraction loop of `accumulate` for `delta < 0`.
Mirrors the source: while the remaining borrow exceeds the current limb,
split it into low/high halves, subtract the low half (with a virtual borrow
`2^32` when needed, asserting that the adjusted limb fits in one limb), and
continue one limb up.  Stepping above limb 0 is an out-of-bounds access. -/
def subLoop : List Nat → Nat → Nat → Except UB (List Nat)
  | acc, d, 0 =>
    if 0 < acc.length then
      if d ≤ acc.getD 0 0 then .ok (acc.set 0 (acc.getD 0 0 - d))
      else if acc.getD 0 0 < d % 2 ^ 32 then
        if (2 ^ 32 + acc.getD 0 0 - d % 2 ^ 32) / 2 ^ 32 = 0 then .error .oob
        else .error .assertFail
      else .error .oob
    else .error .oob
  | acc, d, o + 1 =>
    if o + 1 < acc.length then
      if d ≤ acc.getD (o + 1) 0 then .ok (acc.set (o + 1) (acc.getD (o + 1) 0 - d))
      else if acc.getD (o + 1) 0 < d % 2 ^ 32 then
        if (2 ^ 32 + acc.getD (o + 1) 0 - d % 2 ^ 32) / 2 ^ 32 = 0 then
          subLoop (acc.set (o + 1) (2 ^ 32 + acc.getD (o + 1) 0 - d % 2 ^ 32))
            (d / 2 ^ 32 + 1) o
        else .error .assertFail
      else subLoop (acc.set (o + 1) (acc.getD (o + 1) 0 - d % 2 ^ 32)) (d / 2 ^ 32) o
    else .error .oob

/-- `accumulate(delta, offset)` from the source: add the signed double-limb
`delta` into the big fixed-point accumulator at limb `offset`. -/
def accumulate (acc : List Nat) (delta : Int) (off : Nat) : Except UB (List Nat) :=
  if delta < 0 then subLoop acc delta.natAbs off
  else addLoop acc delta.toNat off

/-! ### Argument parsing (`read_parameters`) and seeding (`initialize_variables`) -/

/-- The globals set by `read_parameters`. -/
structure Params where
  precision : Nat
  pi_d : Nat
  multipliers : List Nat
  args : List Nat
  arg_sq : List Nat
  deriving DecidableEq, Repr

/-- Result of argument parsing: parsed parameters, `std::exit(code)` after
printing usage, or undefined behaviour (`std::stoul(nullptr)`). -/
inductive ParseRes where
  | ok : Params → ParseRes
  | exit : Nat → ParseRes
  | ub : ParseRes
  deriving DecidableEq, Repr

/-- The `(multiplier, arg)` pair-reading loop of `read_parameters`.  Every
value is the number parsed by `std::stoul` from the corresponding argv cell.
A multiplier above `limb_max`, a missing arg, or an arg above `arg_max` cause
`usage_and_exit(1)`.  The narrowing `push_back`s are no-ops because the values
were just bounds-checked, and `arg_sq` records `n*n`. -/
def readPairs : List Nat → Params → ParseRes
  | [], p => .ok p
  | m :: rest, p =>
    if limb_max < m then .exit 1
    else match rest with
      | [] => .exit 1
      | a :: rest' =>
        if arg_max < a then .exit 1
        else readPairs rest' { p with multipliers := p.multipliers ++ [m],
                                      args := p.args ++ [a],
                                      arg_sq := p.arg_sq ++ [a * a] }

/-- `read_parameters` on the numeric argv tail `[precision, d, m1, a1, ...]`
(the values after the program name).  `precision < 1`, `d = 0` and an empty
term list are rejected with exit code 1; a present `precision` with a missing
`d` dereferences a null argv cell (undefined behaviour). -/
def read_parameters : List Nat → ParseRes
  | [] => .exit 1
  | [_] => .ub
  | p :: d :: rest =>
    if p < 1 then .exit 1
    else if d = 0 then .exit 1
    else match readPairs rest ⟨p, d, [], [], []⟩ with
      | .ok prm => if prm.args.isEmpty then .exit 1 else .ok prm
      | r => r

/-- A remainder block `R_k`: the still-active term count and the
`(N+1) * block_height` carried remainders. -/
structure RBlock where
  arg_count : Nat
  remainders : List Nat
  deriving DecidableEq, Repr

/-- The mutable evaluator state: accumulator, quotient vector, remainder
column and `block_digit_offset`. -/
structure LState where
  acc : List Nat
  q : List Nat
  col : List RBlock
  bdo : Nat
  deriving DecidableEq, Repr

/-- One iteration of the seeding loop of `initialize_variables`: store the
double-limb `args[i] * multipliers[i] * pi_d` (computed in wrapping uint64
arithmetic) into rows `W-1` (low half) and `W-2` (high half) of column `i` of
the quotient vector. -/
def seedStep (args mults : List Nat) (d N : Nat) (q : List Nat) (i : Nat) : List Nat :=
  let n := args.getD i 0 * mults.getD i 0 % 2 ^ 64 * d % 2 ^ 64
  (q.set ((block_width - 1) * N + i) (n % 2 ^ 32)).set
    ((block_width - 2) * N + i) (n / 2 ^ 32 % 2 ^ 32)

/-- The quotient vector after the seeding loop of `initialize_variables`. -/
def seedQuot (args mults : List Nat) (d : Nat) : List Nat :=
  (List.range args.length).foldl (seedStep args mults d args.length)
    (List.replicate (block_width * args.length) 0)

/-- `initialize_variables`: size and zero the accumulator, seed the quotient
vector, clear the remainder column and reset `block_digit_offset`.
(`block_divisor_offset` is reset to 1 again at the start of every outer pass
of `main`, so it is threaded there.) -/
def initialize_variables (p : Params) : LState :=
  let fractional_size :=
    if p.precision % block_width = 0 then p.precision
    else (p.precision / block_width + 1) * block_width
  ⟨List.replicate (fractional_size + block_width) 0,
    seedQuot p.args p.multipliers p.pi_d, [], 0⟩

/-- Column `i` of the quotient vector (over all `block_width` rows) contains a
non-zero limb. -/
def colNonZero (q : List Nat) (N i : Nat) : Bool :=
  (List.range block_width).any (fun w => q.getD (w * N + i) 0 != 0)

/-- `count_non_zero_quotents`: scan term columns from index 0 upward and
return `N - i` for the first column `i` that still holds a non-zero limb
(0 when all columns are zero). -/
def count_non_zero_quotents (q : List Nat) (N : Nat) : Nat :=
  match (List.range N).find? (fun i => colNonZero q N i) with
  | some i => N - i
  | none => 0

/-- The built-in default argument list of `main`
(`17 4  5 7  4 68  2 117`, i.e. d·Σ = 4·(5·arccot(7)+4·arccot(68)+2·arccot(117))
with precision 17). -/
def default_args : List Nat := [17, 4, 5, 7, 4, 68, 2, 117]

/-! ### `process_block` -/

/-- Reinterpret a wrapped twos-complement 64-bit value: the signed delta is an
`int64_t` while the quotients are `uint64_t`, so `delta += q` / `delta -= q`
convert through `uint64_t` and wrap modulo `2^64`. -/
def wrap64 (x : Int) : Int := (x + 2 ^ 63) % 2 ^ 64 - 2 ^ 63

/-- The per-term inner loop of one series row of `process_block`
(`for (i = 0; i < block.arg_count; ++i)`): form
`n = (remainder << 32) + q[i]`, store `n / arg_sq[i]` (narrowed back to a
limb) into the quotient cell, store `n % arg_sq[i]` as the new remainder, and
add the narrowed quotient to the row sum (a wrapping uint64).  The quotient
and remainder iterators are modelled as list suffixes consumed element-wise:
`qs` is the quotient vector from the current slot onward, `rs` the remainder
vector from the current row onward, `k` the remaining term count of the row.
The call returns the rewritten prefixes (in order), the untouched suffixes
and the row sum.  `arg_sq[i] = 0` is a division by zero; running off either
vector is an out-of-bounds access. -/
def termLoop (sq : List Nat) :
    Nat → Nat → List Nat → List Nat → Nat →
    Except UB (List Nat × List Nat × List Nat × List Nat × Nat)
  | _, 0, qs, rs, sum => .ok ([], qs, [], rs, sum)
  | i, k + 1, qx :: qt, rx :: rt, sum =>
    if i < sq.length then
      if sq.getD i 0 = 0 then .error .divZero
      else
        match termLoop sq (i + 1) k qt rt
          ((sum + (rx * 2 ^ 32 + qx) / sq.getD i 0 % 2 ^ 32) % 2 ^ 64) with
        | .error e => .error e
        | .ok (qp, qrest, rp, rrest, sum') =>
          .ok ((rx * 2 ^ 32 + qx) / sq.getD i 0 % 2 ^ 32 :: qp, qrest,
            (rx * 2 ^ 32 + qx) % sq.getD i 0 :: rp, rrest, sum')
    else .error .oob
  | _, _ + 1, [], _, _ => .error .oob
  | _, _ + 1, _ :: _, [], _ => .error .oob

/-- The series-row loop of `process_block` (`while (remainder != end)`): run
the per-term loop, then fold in the odd-divisor cell
(`sum += rem << 32; rem = sum % divisor`), add or subtract `sum / divisor`
from the signed delta according to the alternating sign (int64 arithmetic,
wrapping through uint64), step the odd divisor by 2 (32-bit unsigned), and
continue with the next row.  `qs` is the quotient vector from the current
slot base onward (rewritten in place every row), `rdone`/`rtodo` split the
remainder vector at the iterator.  Running out of remainder cells mid-row is
the out-of-bounds overrun the source commits when `arg_count + 1` does not
divide the block size.  The gas only bounds the recursion: it cannot run out
when it starts above `rtodo.length`, as every round consumes at least one
cell. -/
def rowLoop (sq : List Nat) (c : Nat) :
    Nat → List Nat → List Nat → List Nat → Nat → Bool → Int →
    Except UB (List Nat × List Nat × Int)
  | 0, _, _, _, _, _, _ => .error .oob
  | _ + 1, qs, rdone, [], _, _, delta => .ok (qs, rdone, delta)
  | g + 1, qs, rdone, rt0 :: rtodo1, divisor, addition, delta =>
    match termLoop sq 0 c qs (rt0 :: rtodo1) 0 with
    | .error e => .error e
    | .ok (qp, qrest, rp, rrest, sum) =>
      match rrest with
      | [] => .error .oob
      | rodd :: rrest' =>
        if divisor = 0 then .error .divZero
        else
          rowLoop sq c g (qp ++ qrest)
            (rdone ++ rp ++ [(sum + rodd * 2 ^ 32) % 2 ^ 64 % divisor]) rrest'
            ((divisor + 2) % 2 ^ 32) (!addition)
            (if addition then
              wrap64 (delta + (sum + rodd * 2 ^ 32) % 2 ^ 64 / divisor)
            else
              wrap64 (delta - (sum + rodd * 2 ^ 32) % 2 ^ 64 / divisor))

/-- The output-slot loop of `process_block` (`while (quotent != end)`): for
each output slot run the row loop over the whole remainder block with the
sign reset to addition, the divisor reset to `block_divisor_offset` and a
zero delta, call `accumulate(delta, digit_offset)`, and advance the quotient
iterator by `N` and the digit offset by one.  `qdone`/`qtodo` split the
quotient vector at the slot base.  Advancing the iterator by `N` beyond the
end of the vector is the overrun the source commits.  The gas cannot run out when it
starts above `qtodo.length` (each round drops `N ≥ 1` cells; `N = 0` cannot
reach this loop because parsing requires at least one term). -/
def slotLoop (sq : List Nat) (N c bdvo : Nat) :
    Nat → List Nat → List Nat → List Nat → List Nat → Nat →
    Except UB (List Nat × List Nat × List Nat)
  | 0, _, _, _, _, _ => .error .oob
  | _ + 1, qdone, [], rems, acc, _ => .ok (qdone, rems, acc)
  | g + 1, qdone, qt0 :: qtodo1, rems, acc, off =>
    match rowLoop sq c (rems.length + 1) (qt0 :: qtodo1) [] rems bdvo true 0 with
    | .error e => .error e
    | .ok (qs', rems', delta) =>
      match accumulate acc delta off with
      | .error e => .error e
      | .ok acc' =>
        if qs'.length < N then .error .oob
        else slotLoop sq N c bdvo g (qdone ++ qs'.take N) (qs'.drop N) rems' acc'
          (off + 1)

/-- `process_block(block)`: process all output slots against the remainder
block, with `c = block.arg_count`, `bdvo = block_divisor_offset` and
`bdo = block_digit_offset`; returns the updated quotient vector, remainder
vector and accumulator. -/
def process_block (sq : List Nat) (N c bdvo bdo : Nat) (q rems acc : List Nat) :
    Except UB (List Nat × List Nat × List Nat) :=
  slotLoop sq N c bdvo (q.length + 1) [] q rems acc bdo

/-! ### The main loop -/

/-- Result of running a loop for a bounded number of iterations: finished with
a value, aborted on undefined behaviour, or still running when the iteration
budget ran out. -/
inductive LoopRes (α : Type) where
  | done : α → LoopRes α
  | ub : UB → LoopRes α
  | more : LoopRes α
  deriving DecidableEq, Repr

/-- The loop did finish with a value. -/
def LoopRes.isDone {α : Type} : LoopRes α → Bool
  | .done _ => true
  | _ => false

/-- The remainder column after the conditional
`if (remainder_column.size() <= column_index) emplace_back(...)`: a fresh
block with `arg_count = next_arg_count` and `(N+1) * block_height` zero
remainders is appended when column `ci` does not exist yet. -/
def innerCol (N : Nat) (s : LState) (ci next : Nat) : List RBlock :=
  if s.col.length ≤ ci
  then s.col ++ [⟨next, List.replicate ((N + 1) * block_height) 0⟩] else s.col

/-- One iteration of the inner do-while of `main`: create the remainder block
for this column if it does not exist yet, raise its stored `arg_count` to
`next_arg_count` if larger, process it, recount the non-zero quotient
columns, step `block_divisor_offset` by `2 * block_height` and move to the
next column. -/
def innerBody (N : Nat) (sq : List Nat) (s : LState) (ci next bdvo : Nat) :
    Except UB (LState × Nat × Nat × Nat) :=
  let col := innerCol N s ci next
  if ci < col.length then
    let blk := col.getD ci ⟨0, []⟩
    let c := max blk.arg_count next
    match process_block sq N c bdvo s.bdo s.q blk.remainders s.acc with
    | .error e => .error e
    | .ok (q', rems', acc') =>
      .ok (⟨acc', q', col.set ci ⟨c, rems'⟩, s.bdo⟩, ci + 1,
        count_non_zero_quotents q' N, (bdvo + 2 * block_height) % 2 ^ 32)
  else .error .oob

/-- The inner do-while of `main`
(`do { ... } while (remainder_column.size() > column_index or
next_arg_count > 0)`), bounded by `fuel` iterations. -/
def innerLoop (N : Nat) (sq : List Nat) :
    Nat → LState × Nat × Nat × Nat → LoopRes LState
  | 0, _ => .more
  | fuel + 1, (s, ci, next, bdvo) =>
    match innerBody N sq s ci next bdvo with
    | .error e => .ub e
    | .ok (s', ci', next', bdvo') =>
      if ci' < s'.col.length ∨ 0 < next' then innerLoop N sq fuel (s', ci', next', bdvo')
      else .done s'

/-- The outer while of `main` (`while (block_digit_offset < accumulator.size())`):
run the inner loop with `column_index = 0`, `next_arg_count = N` and
`block_divisor_offset = 1`, then advance `block_digit_offset` by
`block_width`.  The gas bounds the number of passes and cannot run out when it
starts above `acc.length`. -/
def outerLoop (N : Nat) (sq : List Nat) : Nat → Nat → LState → LoopRes LState
  | 0, _, _ => .more
  | gas + 1, fuel, s =>
    if s.acc.length ≤ s.bdo then .done s
    else
      match innerLoop N sq fuel (s, 0, N, 1) with
      | .done s' => outerLoop N sq gas fuel { s' with bdo := s'.bdo + block_width }
      | .ub e => .ub e
      | .more => .more

/-! ### Decimal output -/

/-- The schoolbook division of `print_integer_part`, walking limbs most
significant first (`n += a[i]; a[i] = n / 10; n %= 10; n <<= 32`), with the
carry `n` threaded left to right. -/
def div10Go : List Nat → Nat → List Nat × Nat
  | [], n => ([], n)
  | x :: t, n =>
    ((n + x) / 10 % 2 ^ 32 :: (div10Go t ((n + x) % 10 * 2 ^ 32)).1,
      (div10Go t ((n + x) % 10 * 2 ^ 32)).2)

/-- One pass of the division in `print_integer_part` of the top `block_width`
limbs by 10 (`for (i = 0; i < block_width; ++i)`); the final remainder is
discarded by the source. -/
def div10Pass (acc : List Nat) : List Nat :=
  (div10Go (acc.take block_width) 0).1 ++ acc.drop block_width

/-- Scan loop of `findNZ`, counting the at most `block_width - fnz` steps
structurally (the counter never runs out: it starts at `block_width - fnz`
and the loop stops once `fnz` reaches `block_width`). -/
def findNZAux (acc : List Nat) : Nat → Nat → Nat
  | 0, fnz => fnz
  | g + 1, fnz =>
    if fnz < block_width then
      if acc.getD fnz 0 = 0 then findNZAux acc g (fnz + 1) else fnz
    else fnz

/-- The `first_non_zero` scan of `print_integer_part`: advance while below
`block_width` over zero limbs. -/
def findNZ (acc : List Nat) (fnz : Nat) : Nat :=
  findNZAux acc (block_width - fnz) fnz

/-- The digit loop of `print_integer_part`: while some limb of the top
`block_width` is non-zero, emit `acc[W-1] % 10` and then divide the top limbs
by 10.  The source pushes digits least-significant first and reverses them for
display; consing produces that reversed (display) order directly.  The gas
bounds the recursion; it cannot run out when it exceeds the decimal length of
the top-`W` value, because each round divides that value by 10. -/
def printIntLoop : Nat → List Nat → Nat → List Nat → List Nat × List Nat
  | 0, acc, _, ds => (ds, acc)
  | g + 1, acc, fnz, ds =>
    if fnz < block_width then
      printIntLoop g (div10Pass acc) (findNZ (div10Pass acc) fnz)
        (acc.getD (block_width - 1) 0 % 10 :: ds)
    else (ds, acc)

/-- `print_integer_part`: the emitted decimal digits (most significant first,
`[0]` when the integer part is zero) together with the mutated accumulator. -/
def print_integer_part (acc : List Nat) (gas : Nat) : List Nat × List Nat :=
  let r := printIntLoop gas acc (findNZ acc 0) []
  (if r.1.isEmpty then [0] else r.1, r.2)

/-- The downward `first_non_zero` scan of `print_fractional_part`
(`while (fnz > 0 and acc[fnz] == 0) fnz--`). -/
def findNZdown (acc : List Nat) : Nat → Nat
  | 0 => 0
  | f + 1 => if acc.getD (f + 1) 0 = 0 then findNZdown acc f else f + 1

/-- The carry recursion of the multiply pass of `print_fractional_part`
(`n += a[i] * pow10; a[i] = n; n >>= 32` for `i` from `first_non_zero` down
to `block_width - 1`), processing a limb segment whose head is the
least-index limb: the tail (higher indices) is multiplied first and the carry
flows toward the head.  Returns the rewritten segment and the carry out of
its head, which the source discards. -/
def mulGo : List Nat → List Nat × Nat
  | [] => ([], 0)
  | x :: t =>
    (((mulGo t).2 + x * 10 ^ 9) % 2 ^ 64 % 2 ^ 32 :: (mulGo t).1,
      ((mulGo t).2 + x * 10 ^ 9) % 2 ^ 64 / 2 ^ 32)

/-- The multiply-by-`10^digits10` pass of `print_fractional_part`, walking
from limb `fnz` down to the boundary limb `block_width - 1` (no iteration
when `fnz` is below it). -/
def mulPass (acc : List Nat) (fnz : Nat) : List Nat :=
  if fnz < block_width - 1 then acc
  else acc.take (block_width - 1) ++ (mulGo ((acc.take (fnz + 1)).drop (block_width - 1))).1
    ++ acc.drop (fnz + 1)

/-- Emission of `digits10 = 9` decimal digits from the boundary limb
(`digit = a[W-1] / p; a[W-1] %= p; p /= 10` with `p` from `10^8` down to 1),
written out explicitly for the nine fixed iterations. -/
def extract9 (v : Nat) : List Nat :=
  [v / 10 ^ 8, v % 10 ^ 8 / 10 ^ 7, v % 10 ^ 7 / 10 ^ 6, v % 10 ^ 6 / 10 ^ 5,
   v % 10 ^ 5 / 10 ^ 4, v % 10 ^ 4 / 10 ^ 3, v % 10 ^ 3 / 10 ^ 2, v % 10 ^ 2 / 10,
   v % 10]

/-- The digit loop of `print_fractional_part`: while a fractional limb is
non-zero and the emitted count has not passed the budget `dec`, multiply the
fractional limbs by `10^9`, emit the nine digits that crossed into the
boundary limb `acc[W-1]`, zero that limb and rescan for the lowest non-zero
limb. -/
def printFracLoop (dec : Nat) : Nat → List Nat → Nat → List Nat → List Nat
  | 0, _, _, ds => ds
  | g + 1, acc, fnz, ds =>
    if 0 < fnz ∧ ds.length ≤ dec then
      printFracLoop dec g ((mulPass acc fnz).set (block_width - 1) 0)
        (findNZdown ((mulPass acc fnz).set (block_width - 1) 0) fnz)
        (ds ++ extract9 ((mulPass acc fnz).getD (block_width - 1) 0))
    else ds

/-- `print_fractional_part`: the emitted fractional decimal digits.  The digit
budget is `(accumulator.size() - block_width) * digits10 - 2` (computed in
`unsigned long`; the `Nat` subtraction here agrees with it whenever
`acc.length > block_width`, which holds for every accumulator the program
builds). -/
def print_fractional_part (acc : List Nat) (gas : Nat) : List Nat :=
  printFracLoop ((acc.length - block_width) * 9 - 2) gas acc
    (findNZdown acc (acc.length - 1)) []

/-- The whole program on the numeric argv tail (empty = run the built-in
default arguments): parse, initialize, run the outer loop (bounded by `fuel`
iterations of the inner do-while), then print.  The exit code is 1 on
argument errors and 0 when `main` falls off the end. -/
def runProgram (argv : List Nat) (fuel : Nat) : LoopRes (Nat × List Nat × List Nat) :=
  match read_parameters (if argv.isEmpty then default_args else argv) with
  | .exit c => .done (c, [], [])
  | .ub => .ub .oob
  | .ok p =>
    let s0 := initialize_variables p
    match outerLoop p.args.length p.arg_sq (s0.acc.length + 1) fuel s0 with
    | .done s =>
      let ri := print_integer_part s.acc 700
      .done (0, ri.1, print_fractional_part ri.2 ri.2.length)
    | .ub e => .ub e
    | .more => .more

/-- The program never finishes on the given argv, no matter how many
iterations of the inner do-while it is granted. -/
def neverDone (argv : List Nat) : Prop :=
  ∀ fuel, (runProgram argv fuel).isDone = false

/-! ## Theorems -/

/-! ### Generic list lemmas -/

theorem getD_set_ne {l : List Nat} {i j : Nat} {x : Nat} (h : i ≠ j) :
    (l.set i x).getD j 0 = l.getD j 0 := by
  induction l generalizing i j with
  | nil => simp
  | cons a t ih =>
    cases i with
    | zero =>
      cases j with
      | zero => exact absurd rfl h
      | succ j' => simp [List.set, List.getD]
    | succ i' =>
      cases j with
      | zero => simp [List.set, List.getD]
      | succ j' =>
        simp only [List.set, List.getD_cons_succ]
        exact ih (fun hc => h (by rw [hc]))

theorem getD_set_self {l : List Nat} {i : Nat} {x : Nat} (h : i < l.length) :
    (l.set i x).getD i 0 = x := by
  induction l generalizing i with
  | nil => simp at h
  | cons a t ih =>
    cases i with
    | zero => simp [List.set, List.getD]
    | succ i' =>
      simp only [List.set, List.getD_cons_succ]
      exact ih (by simpa using h)

theorem set_getD_self {l : List Nat} {i : Nat} (h : i < l.length) :
    l.set i (l.getD i 0) = l := by
  induction l generalizing i with
  | nil => simp at h
  | cons a t ih =>
    cases i with
    | zero => simp [List.set, List.getD]
    | succ i' =>
      simp only [List.set, List.getD_cons_succ, List.cons.injEq, true_and]
      exact ih (by simpa using h)

theorem take_set_of_le {l : List Nat} {i k : Nat} {x : Nat} (h : k ≤ i) :
    (l.set i x).take k = l.take k := by
  induction l generalizing i k with
  | nil => simp
  | cons a t ih =>
    cases i with
    | zero =>
      interval_cases k
      · simp
    | succ i' =>
      cases k with
      | zero => simp
      | succ k' =>
        simp only [List.set, List.take_succ_cons, List.cons.injEq, true_and]
        exact ih (Nat.le_of_succ_le_succ h)

theorem drop_set_of_lt {l : List Nat} {i k : Nat} {x : Nat} (h : i < k) :
    (l.set i x).drop k = l.drop k := by
  induction l generalizing i k with
  | nil => simp
  | cons a t ih =>
    cases i with
    | zero =>
      cases k with
      | zero => omega
      | succ k' => simp
    | succ i' =>
      cases k with
      | zero => omega
      | succ k' =>
        simp only [List.set, List.drop_succ_cons]
        exact ih (Nat.lt_of_succ_lt_succ h)

theorem limbsVal_append (a b : List Nat) :
    limbsVal (a ++ b) = limbsVal a * 2 ^ (32 * b.length) + limbsVal b := by
  induction a with
  | nil => simp [limbsVal]
  | cons x t ih =>
    show x * 2 ^ (32 * (t ++ b).length) + limbsVal (t ++ b) = _
    rw [List.length_append, Nat.mul_add, pow_add, ih]
    show _ = (x * 2 ^ (32 * t.length) + limbsVal t) * 2 ^ (32 * b.length) + limbsVal b
    ring

theorem limbsVal_snoc (a : List Nat) (y : Nat) :
    limbsVal (a ++ [y]) = limbsVal a * 2 ^ 32 + y := by
  rw [limbsVal_append]
  simp [limbsVal]

theorem limbsVal_singleton (x : Nat) : limbsVal [x] = x := by
  simp [limbsVal]

theorem take_succ_getD {l : List Nat} {k : Nat} (h : k < l.length) :
    l.take (k + 1) = l.take k ++ [l.getD k 0] := by
  induction l generalizing k with
  | nil => simp at h
  | cons a t ih =>
    cases k with
    | zero => simp [List.getD]
    | succ k' =>
      simp only [List.take_succ_cons, List.getD_cons_succ, List.cons_append,
        List.cons.injEq, true_and]
      exact ih (by simpa using h)

theorem limbsWf_set {l : List Nat} {i x : Nat} (hl : limbsWf l) (hx : x < 2 ^ 32) :
    limbsWf (l.set i x) := by
  intro y hy
  rcases List.mem_or_eq_of_mem_set hy with h | h
  · exact hl y h
  · omega

theorem limbsWf_getD {l : List Nat} (hl : limbsWf l) (i : Nat) :
    l.getD i 0 < 2 ^ 32 := by
  induction l generalizing i with
  | nil => simp [List.getD]
  | cons a t ih =>
    cases i with
    | zero => exact hl a (List.mem_cons_self a t)
    | succ i' =>
      rw [List.getD_cons_succ]
      exact ih (fun x hx => hl x (List.mem_cons_of_mem a hx)) i'

theorem getD_drop_zero (l : List Nat) (k : Nat) :
    (l.drop k).getD 0 0 = l.getD k 0 := by
  induction l generalizing k with
  | nil => simp
  | cons a t ih =>
    cases k with
    | zero => simp [List.getD]
    | succ k' => simpa using ih k'

theorem getD_of_drop_eq {l m : List Nat} {k : Nat} (h : l.drop k = m.drop k) :
    l.getD k 0 = m.getD k 0 := by
  rw [← getD_drop_zero l k, ← getD_drop_zero m k, h]

theorem limbsVal_split (l : List Nat) (k : Nat) :
    limbsVal l = limbsVal (l.take k) * 2 ^ (32 * (l.drop k).length) + limbsVal (l.drop k) := by
  conv_lhs => rw [← List.take_append_drop k l]
  exact limbsVal_append _ _

/-! ### Correctness of `accumulate` -/

theorem subLoop_ok (off : Nat) : ∀ (acc : List Nat) (d : Nat),
    limbsWf acc → off < acc.length → d ≤ limbsVal (acc.take (off + 1)) →
    ∃ acc', subLoop acc d off = .ok acc' ∧ acc'.length = acc.length ∧ limbsWf acc' ∧
      acc'.drop (off + 1) = acc.drop (off + 1) ∧
      limbsVal (acc'.take (off + 1)) = limbsVal (acc.take (off + 1)) - d := by
  induction off with
  | zero =>
    intro acc d hwf hlen hle
    have hval : limbsVal (acc.take (0 + 1)) = acc.getD 0 0 := by
      rw [take_succ_getD hlen, List.take_zero, List.nil_append, limbsVal_singleton]
    rw [hval] at hle
    refine ⟨acc.set 0 (acc.getD 0 0 - d), ?_, ?_, ?_, ?_, ?_⟩
    · rw [subLoop, if_pos hlen, if_pos hle]
    · simp
    · exact limbsWf_set hwf (lt_of_le_of_lt (Nat.sub_le _ _) (limbsWf_getD hwf 0))
    · exact drop_set_of_lt (by omega)
    · have hlen' : (0 : Nat) < (acc.set 0 (acc.getD 0 0 - d)).length := by simpa using hlen
      rw [take_succ_getD hlen', List.take_zero, List.nil_append, limbsVal_singleton,
        getD_set_self hlen, hval]
  | succ o ih =>
    intro acc d hwf hlen hle
    have hsplit : limbsVal (acc.take (o + 1 + 1)) =
        limbsVal (acc.take (o + 1)) * 2 ^ 32 + acc.getD (o + 1) 0 := by
      rw [take_succ_getD hlen, limbsVal_snoc]
    by_cases hda : d ≤ acc.getD (o + 1) 0
    · refine ⟨acc.set (o + 1) (acc.getD (o + 1) 0 - d), ?_, ?_, ?_, ?_, ?_⟩
      · rw [subLoop, if_pos hlen, if_pos hda]
      · simp
      · exact limbsWf_set hwf (lt_of_le_of_lt (Nat.sub_le _ _) (limbsWf_getD hwf _))
      · exact drop_set_of_lt (by omega)
      · have hlen' : o + 1 < (acc.set (o + 1) (acc.getD (o + 1) 0 - d)).length := by
          simpa using hlen
        rw [take_succ_getD hlen', limbsVal_snoc, take_set_of_le (le_refl _),
          getD_set_self hlen, hsplit]
        omega
    · -- d > a: borrow propagation step
      have hdm : d % 2 ^ 32 < 2 ^ 32 := Nat.mod_lt _ (by norm_num)
      have hdsplit := Nat.div_add_mod d (2 ^ 32)
      have ha32 : acc.getD (o + 1) 0 < 2 ^ 32 := limbsWf_getD hwf _
      by_cases hlow : acc.getD (o + 1) 0 < d % 2 ^ 32
      · -- subtract with virtual borrow
        have htemp : 2 ^ 32 + acc.getD (o + 1) 0 - d % 2 ^ 32 < 2 ^ 32 := by omega
        have htemp0 : (2 ^ 32 + acc.getD (o + 1) 0 - d % 2 ^ 32) / 2 ^ 32 = 0 :=
          Nat.div_eq_of_lt htemp
        have hVbound : d / 2 ^ 32 + 1 ≤ limbsVal (acc.take (o + 1)) := by
          rw [hsplit] at hle
          by_contra hc
          push_neg at hc
          have h1 : limbsVal (acc.take (o + 1)) ≤ d / 2 ^ 32 := by omega
          have h2 : limbsVal (acc.take (o + 1)) * 2 ^ 32 ≤ d / 2 ^ 32 * 2 ^ 32 :=
            Nat.mul_le_mul_right _ h1
          omega
        have hwf2 : limbsWf (acc.set (o + 1) (2 ^ 32 + acc.getD (o + 1) 0 - d % 2 ^ 32)) :=
          limbsWf_set hwf htemp
        have hlen2 : o <
            (acc.set (o + 1) (2 ^ 32 + acc.getD (o + 1) 0 - d % 2 ^ 32)).length := by
          simp; omega
        have hle2 : d / 2 ^ 32 + 1 ≤ limbsVal
            ((acc.set (o + 1) (2 ^ 32 + acc.getD (o + 1) 0 - d % 2 ^ 32)).take (o + 1)) := by
          rw [take_set_of_le (le_refl _)]; exact hVbound
        obtain ⟨acc', heq, hlen', hwf', hdrop', hval'⟩ :=
          ih (acc.set (o + 1) (2 ^ 32 + acc.getD (o + 1) 0 - d % 2 ^ 32))
            (d / 2 ^ 32 + 1) hwf2 hlen2 hle2
        refine ⟨acc', ?_, ?_, hwf', ?_, ?_⟩
        · rw [subLoop, if_pos hlen, if_neg hda, if_pos hlow, if_pos htemp0]
          exact heq
        · rw [hlen']; simp
        · have h1 : acc'.drop (o + 1 + 1) =
              (acc.set (o + 1) (2 ^ 32 + acc.getD (o + 1) 0 - d % 2 ^ 32)).drop
                (o + 1 + 1) := by
            rw [← List.drop_drop 1 (o + 1) acc', hdrop', List.drop_drop]
          rw [h1]
          exact drop_set_of_lt (by omega)
        · have hget : acc'.getD (o + 1) 0 = 2 ^ 32 + acc.getD (o + 1) 0 - d % 2 ^ 32 := by
            rw [getD_of_drop_eq hdrop', getD_set_self (by simpa using hlen)]
          have hlenacc' : o + 1 < acc'.length := by rw [hlen']; simpa using hlen
          rw [take_succ_getD hlenacc', limbsVal_snoc, hget, hval',
            take_set_of_le (le_refl _), hsplit]
          have h3 : (d / 2 ^ 32 + 1) * 2 ^ 32 ≤ limbsVal (acc.take (o + 1)) * 2 ^ 32 :=
            Nat.mul_le_mul_right _ hVbound
          rw [Nat.sub_mul]
          rw [Nat.add_mul] at h3
          omega
      · -- subtract low half without borrow
        push_neg at hlow
        have hVbound : d / 2 ^ 32 ≤ limbsVal (acc.take (o + 1)) := by
          rw [hsplit] at hle
          by_contra hc
          push_neg at hc
          have h1 : limbsVal (acc.take (o + 1)) + 1 ≤ d / 2 ^ 32 := hc
          have h2 : (limbsVal (acc.take (o + 1)) + 1) * 2 ^ 32 ≤ d / 2 ^ 32 * 2 ^ 32 :=
            Nat.mul_le_mul_right _ h1
          rw [Nat.add_mul] at h2
          omega
        have hwf2 : limbsWf (acc.set (o + 1) (acc.getD (o + 1) 0 - d % 2 ^ 32)) :=
          limbsWf_set hwf (by omega)
        have hlen2 : o < (acc.set (o + 1) (acc.getD (o + 1) 0 - d % 2 ^ 32)).length := by
          simp; omega
        have hle2 : d / 2 ^ 32 ≤ limbsVal
            ((acc.set (o + 1) (acc.getD (o + 1) 0 - d % 2 ^ 32)).take (o + 1)) := by
          rw [take_set_of_le (le_refl _)]; exact hVbound
        obtain ⟨acc', heq, hlen', hwf', hdrop', hval'⟩ :=
          ih (acc.set (o + 1) (acc.getD (o + 1) 0 - d % 2 ^ 32)) (d / 2 ^ 32) hwf2 hlen2 hle2
        refine ⟨acc', ?_, ?_, hwf', ?_, ?_⟩
        · rw [subLoop, if_pos hlen, if_neg hda, if_neg (by omega)]
          exact heq
        · rw [hlen']; simp
        · have h1 : acc'.drop (o + 1 + 1) =
              (acc.set (o + 1) (acc.getD (o + 1) 0 - d % 2 ^ 32)).drop (o + 1 + 1) := by
            rw [← List.drop_drop 1 (o + 1) acc', hdrop', List.drop_drop]
          rw [h1]
          exact drop_set_of_lt (by omega)
        · have hget : acc'.getD (o + 1) 0 = acc.getD (o + 1) 0 - d % 2 ^ 32 := by
            rw [getD_of_drop_eq hdrop', getD_set_self (by simpa using hlen)]
          have hlenacc' : o + 1 < acc'.length := by rw [hlen']; simpa using hlen
          rw [take_succ_getD hlenacc', limbsVal_snoc, hget, hval',
            take_set_of_le (le_refl _), hsplit]
          have h3 : (d / 2 ^ 32) * 2 ^ 32 ≤ limbsVal (acc.take (o + 1)) * 2 ^ 32 :=
            Nat.mul_le_mul_right _ hVbound
          rw [Nat.sub_mul]
          omega

theorem addLoop_ok (off : Nat) : ∀ (acc : List Nat) (d : Nat),
    limbsWf acc → off < acc.length →
    d + limbsVal (acc.take (off + 1)) < 2 ^ (32 * (off + 1)) →
    ∃ acc', addLoop acc d off = .ok acc' ∧ acc'.length = acc.length ∧ limbsWf acc' ∧
      acc'.drop (off + 1) = acc.drop (off + 1) ∧
      limbsVal (acc'.take (off + 1)) = limbsVal (acc.take (off + 1)) + d := by
  induction off with
  | zero =>
    intro acc d hwf hlen hlt
    by_cases hd : d = 0
    · exact ⟨acc, by rw [addLoop, if_pos hd], rfl, hwf, rfl, by omega⟩
    · have hval : limbsVal (acc.take (0 + 1)) = acc.getD 0 0 := by
        rw [take_succ_getD hlen, List.take_zero, List.nil_append, limbsVal_singleton]
      rw [hval] at hlt
      have hn : d + acc.getD 0 0 < 2 ^ 32 := by
        have h32 : 2 ^ (32 * (0 + 1)) = 2 ^ 32 := by norm_num
        omega
      have hdiv : (d + acc.getD 0 0) / 2 ^ 32 = 0 := Nat.div_eq_of_lt hn
      have hmod : (d + acc.getD 0 0) % 2 ^ 32 = d + acc.getD 0 0 := Nat.mod_eq_of_lt hn
      refine ⟨acc.set 0 ((d + acc.getD 0 0) % 2 ^ 32), ?_, ?_, ?_, ?_, ?_⟩
      · rw [addLoop, if_neg hd, if_pos hlen, if_pos hdiv]
      · simp
      · exact limbsWf_set hwf (by omega)
      · exact drop_set_of_lt (by omega)
      · have hlen' : (0 : Nat) <
            (acc.set 0 ((d + acc.getD 0 0) % 2 ^ 32)).length := by simpa using hlen
        rw [take_succ_getD hlen', List.take_zero, List.nil_append, limbsVal_singleton,
          getD_set_self hlen, hval, hmod]
        omega
  | succ o ih =>
    intro acc d hwf hlen hlt
    by_cases hd : d = 0
    · exact ⟨acc, by rw [addLoop, if_pos hd], rfl, hwf, rfl, by omega⟩
    · have hsplit : limbsVal (acc.take (o + 1 + 1)) =
          limbsVal (acc.take (o + 1)) * 2 ^ 32 + acc.getD (o + 1) 0 := by
        rw [take_succ_getD hlen, limbsVal_snoc]
      have hpowsplit : 2 ^ (32 * (o + 1 + 1)) = 2 ^ (32 * (o + 1)) * 2 ^ 32 := by
        rw [← pow_add]
        ring_nf
      have hwf2 : limbsWf (acc.set (o + 1) ((d + acc.getD (o + 1) 0) % 2 ^ 32)) :=
        limbsWf_set hwf (Nat.mod_lt _ (by norm_num))
      have hlen2 : o <
          (acc.set (o + 1) ((d + acc.getD (o + 1) 0) % 2 ^ 32)).length := by simp; omega
      have hnsplit := Nat.div_add_mod (d + acc.getD (o + 1) 0) (2 ^ 32)
      have hlt2 : (d + acc.getD (o + 1) 0) / 2 ^ 32 +
          limbsVal ((acc.set (o + 1) ((d + acc.getD (o + 1) 0) % 2 ^ 32)).take (o + 1)) <
          2 ^ (32 * (o + 1)) := by
        rw [take_set_of_le (le_refl _)]
        rw [hsplit, hpowsplit] at hlt
        by_contra hc
        push_neg at hc
        have h1 : 2 ^ (32 * (o + 1)) * 2 ^ 32 ≤
            ((d + acc.getD (o + 1) 0) / 2 ^ 32 + limbsVal (acc.take (o + 1))) * 2 ^ 32 :=
          Nat.mul_le_mul_right _ hc
        rw [Nat.add_mul] at h1
        have h2 : (d + acc.getD (o + 1) 0) / 2 ^ 32 * 2 ^ 32 ≤ d + acc.getD (o + 1) 0 :=
          Nat.div_mul_le_self _ _
        omega
      obtain ⟨acc', heq, hlen', hwf', hdrop', hval'⟩ :=
        ih (acc.set (o + 1) ((d + acc.getD (o + 1) 0) % 2 ^ 32))
          ((d + acc.getD (o + 1) 0) / 2 ^ 32) hwf2 hlen2 hlt2
      refine ⟨acc', ?_, ?_, hwf', ?_, ?_⟩
      · rw [addLoop, if_neg hd, if_pos hlen]
        exact heq
      · rw [hlen']; simp
      · have h1 : acc'.drop (o + 1 + 1) =
            (acc.set (o + 1) ((d + acc.getD (o + 1) 0) % 2 ^ 32)).drop (o + 1 + 1) := by
          rw [← List.drop_drop 1 (o + 1) acc', hdrop', List.drop_drop]
        rw [h1]
        exact drop_set_of_lt (by omega)
      · have hget : acc'.getD (o + 1) 0 = (d + acc.getD (o + 1) 0) % 2 ^ 32 := by
          rw [getD_of_drop_eq hdrop', getD_set_self (by simpa using hlen)]
        have hlenacc' : o + 1 < acc'.length := by rw [hlen']; simpa using hlen
        rw [take_succ_getD hlenacc', limbsVal_snoc, hget, hval',
          take_set_of_le (le_refl _), hsplit]
        rw [Nat.add_mul]
        omega

/-- C3: for every accumulator state, signed double-limb delta and offset
`off < L`, `accumulate(delta, off)` terminates with every limb access in
bounds (an out-of-bounds access or a failed assertion would surface as an
`.error`), and it changes the accumulator value, read as a base-2^32 big
integer, by exactly `delta * 2^(32*(L-1-off))` — provided that for negative
deltas the value of limbs `0..off` is at least `|delta|`, and for
non-negative deltas the carry does not propagate past limb 0. -/
theorem accumulate_adds_delta (acc : List Nat) (delta : Int) (off : Nat)
    (hwf : limbsWf acc) (hoff : off < acc.length)
    (hmag : delta.natAbs ≤ 2 ^ 63)
    (hneg : delta < 0 → delta.natAbs ≤ limbsVal (acc.take (off + 1)))
    (hpos : 0 ≤ delta → delta.toNat + limbsVal (acc.take (off + 1)) < 2 ^ (32 * (off + 1))) :
    ∃ acc', accumulate acc delta off = .ok acc' ∧ acc'.length = acc.length ∧
      limbsWf acc' ∧
      (limbsVal acc' : Int) =
        limbsVal acc + delta * 2 ^ (32 * (acc.length - 1 - off)) := by
  have hE : (acc.drop (off + 1)).length = acc.length - 1 - off := by
    rw [List.length_drop]; omega
  by_cases hdelta : delta < 0
  · obtain ⟨acc', heq, hlen', hwf', hdrop', hval'⟩ :=
      subLoop_ok off acc delta.natAbs hwf hoff (hneg hdelta)
    refine ⟨acc', ?_, hlen', hwf', ?_⟩
    · rw [accumulate, if_pos hdelta]; exact heq
    · have hkey : limbsVal acc' + delta.natAbs * 2 ^ (32 * (acc.drop (off + 1)).length) =
          limbsVal acc := by
        rw [limbsVal_split acc' (off + 1), limbsVal_split acc (off + 1), hdrop', hval']
        have hmul := Nat.mul_le_mul_right
          (2 ^ (32 * (acc.drop (off + 1)).length)) (hneg hdelta)
        rw [Nat.sub_mul]
        omega
      have habs : (delta.natAbs : Int) = -delta := by omega
      have hcast : (limbsVal acc' : Int) +
          (delta.natAbs : Int) * 2 ^ (32 * (acc.drop (off + 1)).length) =
          limbsVal acc := by
        exact_mod_cast congrArg (Nat.cast : Nat → Int) hkey
      rw [habs] at hcast
      rw [← hE]
      linarith [hcast]
  · push_neg at hdelta
    obtain ⟨acc', heq, hlen', hwf', hdrop', hval'⟩ :=
      addLoop_ok off acc delta.toNat hwf hoff (hpos hdelta)
    refine ⟨acc', ?_, hlen', hwf', ?_⟩
    · rw [accumulate, if_neg (by omega)]; exact heq
    · have hkey : limbsVal acc' =
          limbsVal acc + delta.toNat * 2 ^ (32 * (acc.drop (off + 1)).length) := by
        rw [limbsVal_split acc' (off + 1), limbsVal_split acc (off + 1), hdrop', hval']
        ring
      have htn : (delta.toNat : Int) = delta := Int.toNat_of_nonneg hdelta
      have hcast : (limbsVal acc' : Int) =
          (limbsVal acc : Int) + (delta.toNat : Int) *
            2 ^ (32 * (acc.drop (off + 1)).length) := by
        exact_mod_cast congrArg (Nat.cast : Nat → Int) hkey
      rw [htn] at hcast
      rw [← hE]
      exact hcast

/-- Witness for C3 at a concrete input: subtracting 3 at offset 2 of `[1,0,5]`. -/
theorem accumulate_adds_delta_witness :
    ∃ acc', accumulate [1, 0, 5] (-3) 2 = .ok acc' ∧
      acc'.length = ([1, 0, 5] : List Nat).length ∧ limbsWf acc' ∧
      (limbsVal acc' : Int) =
        limbsVal [1, 0, 5] + (-3) * 2 ^ (32 * (([1, 0, 5] : List Nat).length - 1 - 2)) :=
  accumulate_adds_delta [1, 0, 5] (-3) 2 (by decide) (by decide) (by decide)
    (fun _ => by decide) (fun h => absurd h (by decide))

example : accumulate [0, 0, 5] (-3) 2 = .ok [0, 0, 2] := by decide
example : accumulate [0, 1, 0] (-3) 2 = .ok [0, 0, 2 ^ 32 - 3] := by decide
example : accumulate [0, 0, 2 ^ 32 - 1] 7 2 = .ok [0, 1, 6] := by decide
example : accumulate [0, 0, 5] (2 ^ 33) 1 = .ok [2, 0, 5] := by decide

/-! ### Seeding (`initialize_variables`), claims C2 and C8 -/

theorem seedQuot_spec (args mults : List Nat) (d : Nat)
    (hwa : limbsWf args) (hwm : limbsWf mults)
    (hof : ∀ i, i < args.length → mults.getD i 0 * args.getD i 0 * d < 2 ^ 64) :
    ∀ k, k ≤ args.length →
      (((List.range k).foldl (seedStep args mults d args.length)
          (List.replicate (block_width * args.length) 0)).length = 64 * args.length) ∧
      (∀ i, i < k →
        ((List.range k).foldl (seedStep args mults d args.length)
            (List.replicate (block_width * args.length) 0)).getD
            (62 * args.length + i) 0 =
          mults.getD i 0 * args.getD i 0 * d / 2 ^ 32 ∧
        ((List.range k).foldl (seedStep args mults d args.length)
            (List.replicate (block_width * args.length) 0)).getD
            (63 * args.length + i) 0 =
          mults.getD i 0 * args.getD i 0 * d % 2 ^ 32) ∧
      (∀ j, j < 64 * args.length →
        (∀ i, i < k → j ≠ 62 * args.length + i ∧ j ≠ 63 * args.length + i) →
        ((List.range k).foldl (seedStep args mults d args.length)
            (List.replicate (block_width * args.length) 0)).getD j 0 = 0) := by
  intro k
  induction k with
  | zero =>
    intro _
    refine ⟨?_, ?_, ?_⟩
    · simp [block_width]
    · intro i hi
      omega
    · intro j hj _
      simp only [List.range_zero, List.foldl_nil]
      rw [List.getD_eq_getElem?_getD]
      rcases Nat.lt_or_ge j (List.replicate (block_width * args.length) (0 : Nat)).length
        with h | h
      · rw [List.getElem?_eq_getElem h]
        simp
      · rw [List.getElem?_eq_none h]
        simp
  | succ k ih =>
    intro hk
    have hkl : k < args.length := hk
    obtain ⟨hlen, hseed, hzero⟩ := ih (le_of_lt hkl)
    set L := args.length with hL
    set qk := (List.range k).foldl (seedStep args mults d L)
      (List.replicate (block_width * L) 0) with hqk
    have hstep : (List.range (k + 1)).foldl (seedStep args mults d L)
        (List.replicate (block_width * L) 0) = seedStep args mults d L qk k := by
      rw [List.range_succ, List.foldl_append, List.foldl_cons, List.foldl_nil]
    have hL0 : 0 < L := by omega
    have ham : args.getD k 0 * mults.getD k 0 < 2 ^ 64 := by
      have h1 := limbsWf_getD hwa k
      have h2 := limbsWf_getD hwm k
      calc args.getD k 0 * mults.getD k 0
          ≤ args.getD k 0 * (2 ^ 32 - 1) := Nat.mul_le_mul_left _ (by omega)
        _ < 2 ^ 32 * (2 ^ 32 - 1) + 2 ^ 32 := by
            have := Nat.mul_le_mul_right (2 ^ 32 - 1) (Nat.le_of_lt_succ (by omega : args.getD k 0 < 2 ^ 32 - 1 + 1))
            omega
        _ ≤ 2 ^ 64 := by norm_num
    have hn : args.getD k 0 * mults.getD k 0 % 2 ^ 64 * d % 2 ^ 64 =
        mults.getD k 0 * args.getD k 0 * d := by
      rw [Nat.mod_eq_of_lt ham, mul_comm (args.getD k 0) (mults.getD k 0),
        Nat.mod_eq_of_lt (hof k hkl)]
    have hdivlt : mults.getD k 0 * args.getD k 0 * d / 2 ^ 32 < 2 ^ 32 := by
      rw [Nat.div_lt_iff_lt_mul (by norm_num : 0 < 2 ^ 32)]
      calc mults.getD k 0 * args.getD k 0 * d < 2 ^ 64 := hof k hkl
        _ = 2 ^ 32 * 2 ^ 32 := by norm_num
    have hunf : seedStep args mults d L qk k =
        (qk.set (63 * L + k) (mults.getD k 0 * args.getD k 0 * d % 2 ^ 32)).set
          (62 * L + k) (mults.getD k 0 * args.getD k 0 * d / 2 ^ 32) := by
      rw [seedStep]
      rw [hn]
      have h1 : (block_width - 1) * L + k = 63 * L + k := by
        simp [block_width]
      have h2 : (block_width - 2) * L + k = 62 * L + k := by
        simp [block_width]
      rw [h1, h2, Nat.mod_eq_of_lt hdivlt]
    have hlen1 : (qk.set (63 * L + k)
        (mults.getD k 0 * args.getD k 0 * d % 2 ^ 32)).length = 64 * L := by
      rw [List.length_set, hlen]
    have hp62 : 62 * L + k < 64 * L := by omega
    have hp63 : 63 * L + k < 64 * L := by omega
    rw [hstep, hunf]
    refine ⟨?_, ?_, ?_⟩
    · rw [List.length_set, hlen1]
    · intro i hi
      rcases Nat.lt_or_ge i k with hik | hik
      · have d1 : 62 * L + k ≠ 62 * L + i := by omega
        have d2 : 63 * L + k ≠ 62 * L + i := by omega
        have d3 : 62 * L + k ≠ 63 * L + i := by omega
        have d4 : 63 * L + k ≠ 63 * L + i := by omega
        rw [getD_set_ne d1, getD_set_ne d2, getD_set_ne d3, getD_set_ne d4]
        exact hseed i hik
      · have hik' : i = k := by omega
        subst hik'
        constructor
        · rw [getD_set_self (by rw [hlen1]; exact hp62)]
        · rw [getD_set_ne (by omega), getD_set_self (by rw [hlen]; exact hp63)]
    · intro j hj hne
      have d1 : 62 * L + k ≠ j := by
        have := (hne k (by omega)).1
        omega
      have d2 : 63 * L + k ≠ j := by
        have := (hne k (by omega)).2
        omega
      rw [getD_set_ne d1, getD_set_ne d2]
      exact hzero j hj (fun i hi => hne i (by omega))

/-- C2: after `initialize_variables` on a parsed input, for every term index
`i` the two-limb value `Q[W-2][i] * 2^32 + Q[W-1][i]` equals `m_i * a_i * d`
(rows `W-2`, `W-1` of column `i` live at flat indices `62*N+i` and `63*N+i`),
and every other entry of the quotient vector is zero — provided each
`m_i * a_i * d` fits in two limbs. -/
theorem initialize_variables_seeds (p : Params)
    (hm : p.multipliers.length = p.args.length)
    (hwa : limbsWf p.args) (hwm : limbsWf p.multipliers)
    (hof : ∀ i, i < p.args.length →
      p.multipliers.getD i 0 * p.args.getD i 0 * p.pi_d < 2 ^ 64) :
    (∀ i, i < p.args.length →
      (initialize_variables p).q.getD (62 * p.args.length + i) 0 * 2 ^ 32 +
        (initialize_variables p).q.getD (63 * p.args.length + i) 0 =
        p.multipliers.getD i 0 * p.args.getD i 0 * p.pi_d) ∧
    (∀ j, j < 64 * p.args.length →
      j / p.args.length ≠ 62 → j / p.args.length ≠ 63 →
      (initialize_variables p).q.getD j 0 = 0) := by
  have hq : (initialize_variables p).q = seedQuot p.args p.multipliers p.pi_d := rfl
  obtain ⟨hlen, hseed, hzero⟩ :=
    seedQuot_spec p.args p.multipliers p.pi_d hwa hwm hof p.args.length (le_refl _)
  constructor
  · intro i hi
    obtain ⟨h62, h63⟩ := hseed i hi
    rw [hq, seedQuot, h62, h63]
    have := Nat.div_add_mod (p.multipliers.getD i 0 * p.args.getD i 0 * p.pi_d) (2 ^ 32)
    omega
  · intro j hj h62 h63
    rw [hq, seedQuot]
    refine hzero j hj ?_
    intro i hi
    have hL0 : 0 < p.args.length := by omega
    constructor
    · intro hc
      apply h62
      rw [hc, show 62 * p.args.length + i = p.args.length * 62 + i by ring,
        Nat.mul_add_div hL0, Nat.div_eq_of_lt hi]
    · intro hc
      apply h63
      rw [hc, show 63 * p.args.length + i = p.args.length * 63 + i by ring,
        Nat.mul_add_div hL0, Nat.div_eq_of_lt hi]

/-- Witness for C2 on the concrete parsed input `precision=1 d=1 m=2 a=3`:
the seeded two-limb value at column 0 is `2 * 3 * 1` and entry 0 is zero. -/
theorem initialize_variables_seeds_witness :
    (initialize_variables ⟨1, 1, [2], [3], [9]⟩).q.getD (62 * 1 + 0) 0 * 2 ^ 32 +
      (initialize_variables ⟨1, 1, [2], [3], [9]⟩).q.getD (63 * 1 + 0) 0 = 2 * 3 * 1 ∧
    (initialize_variables ⟨1, 1, [2], [3], [9]⟩).q.getD 0 0 = 0 := by
  have h := initialize_variables_seeds ⟨1, 1, [2], [3], [9]⟩ (by decide) (by decide)
    (by decide) (by decide)
  exact ⟨h.1 0 (by decide), h.2 0 (by decide) (by decide) (by decide)⟩

/-! ### `process_block` remainder invariant (claim C4) -/

/-- C8 counterexample: for the input `precision=1 d=2^32 m=2^32-1 a=2` the
scaled numerator `m*a*d = (2^32-1)*2*2^32` exceeds two limbs, yet
`read_parameters` accepts the input (no usage message, no non-zero exit) and
`initialize_variables` silently seeds the value wrapped modulo `2^64`. -/
theorem read_parameters_overflow_accepted :
    read_parameters [1, 2 ^ 32, 2 ^ 32 - 1, 2] =
      .ok ⟨1, 2 ^ 32, [2 ^ 32 - 1], [2], [4]⟩ ∧
    2 ^ 64 ≤ (2 ^ 32 - 1) * 2 * 2 ^ 32 ∧
    (initialize_variables ⟨1, 2 ^ 32, [2 ^ 32 - 1], [2], [4]⟩).q.getD 62 0 * 2 ^ 32 +
      (initialize_variables ⟨1, 2 ^ 32, [2 ^ 32 - 1], [2], [4]⟩).q.getD 63 0 =
      (2 ^ 32 - 1) * 2 * 2 ^ 32 % 2 ^ 64 := by decide

/-- `read_parameters` accepts every single-term input whose multiplier and
argument pass the per-value bounds, whatever the size of `m * a * d`. -/
theorem read_parameters_single (p d m a : Nat)
    (hp : 1 ≤ p) (hd : 1 ≤ d) (hm : m ≤ limb_max) (ha : a ≤ arg_max) :
    read_parameters [p, d, m, a] = .ok ⟨p, d, [m], [a], [a * a]⟩ := by
  rw [limb_max] at hm
  rw [arg_max] at ha
  have hr : readPairs [m, a] ⟨p, d, [], [], []⟩ = .ok ⟨p, d, [m], [a], [a * a]⟩ := by
    rw [readPairs]
    rw [if_neg (by rw [limb_max]; omega)]
    rw [if_neg (by rw [arg_max]; omega)]
    rw [readPairs]
    simp
  rw [read_parameters]
  rw [if_neg (by omega), if_neg (by omega), hr]
  simp

/-- C8 (amended): there is no seed-time overflow check.  Parse-time validation
only bounds `m <= limb_max` and `a <= arg_max` (`d` is unbounded), every such
single-term input is accepted, and `initialize_variables` seeds
`a * m * d` reduced modulo `2^64` — wrapping silently whenever the product
exceeds two limbs instead of exiting with an error. -/
theorem read_parameters_no_overflow_check (p d m a : Nat)
    (hp : 1 ≤ p) (hd : 1 ≤ d) (hm : m ≤ limb_max) (ha : a ≤ arg_max) :
    read_parameters [p, d, m, a] = .ok ⟨p, d, [m], [a], [a * a]⟩ ∧
    (initialize_variables ⟨p, d, [m], [a], [a * a]⟩).q.getD 62 0 =
      a * m % 2 ^ 64 * d % 2 ^ 64 / 2 ^ 32 % 2 ^ 32 ∧
    (initialize_variables ⟨p, d, [m], [a], [a * a]⟩).q.getD 63 0 =
      a * m % 2 ^ 64 * d % 2 ^ 64 % 2 ^ 32 := by
  refine ⟨read_parameters_single p d m a hp hd hm ha, ?_, ?_⟩
  · have hq : (initialize_variables ⟨p, d, [m], [a], [a * a]⟩).q =
        seedQuot [a] [m] d := rfl
    rw [hq, seedQuot]
    rw [show ([a] : List Nat).length = 1 from rfl]
    rw [show List.range 1 = [0] from rfl, List.foldl_cons, List.foldl_nil, seedStep]
    simp only [List.getD_cons_zero, block_width]
    rw [show (64 - 1) * 1 + 0 = 63 from rfl, show (64 - 2) * 1 + 0 = 62 from rfl]
    rw [getD_set_self (by simp)]
  · have hq : (initialize_variables ⟨p, d, [m], [a], [a * a]⟩).q =
        seedQuot [a] [m] d := rfl
    rw [hq, seedQuot]
    rw [show ([a] : List Nat).length = 1 from rfl]
    rw [show List.range 1 = [0] from rfl, List.foldl_cons, List.foldl_nil, seedStep]
    simp only [List.getD_cons_zero, block_width]
    rw [show (64 - 1) * 1 + 0 = 63 from rfl, show (64 - 2) * 1 + 0 = 62 from rfl]
    rw [getD_set_ne (by omega), getD_set_self (by simp)]

/-- Witness for the amended C8 theorem at `precision=1 d=2^32 m=2^32-1 a=2`. -/
theorem read_parameters_no_overflow_check_witness :
    read_parameters [1, 2 ^ 32, 2 ^ 32 - 1, 2] =
      .ok ⟨1, 2 ^ 32, [2 ^ 32 - 1], [2], [2 * 2]⟩ ∧
    (initialize_variables ⟨1, 2 ^ 32, [2 ^ 32 - 1], [2], [2 * 2]⟩).q.getD 62 0 =
      2 * (2 ^ 32 - 1) % 2 ^ 64 * 2 ^ 32 % 2 ^ 64 / 2 ^ 32 % 2 ^ 32 ∧
    (initialize_variables ⟨1, 2 ^ 32, [2 ^ 32 - 1], [2], [2 * 2]⟩).q.getD 63 0 =
      2 * (2 ^ 32 - 1) % 2 ^ 64 * 2 ^ 32 % 2 ^ 64 % 2 ^ 32 :=
  read_parameters_no_overflow_check 1 (2 ^ 32) (2 ^ 32 - 1) 2 (by decide) (by decide)
    (by decide) (by decide)

/-! ### Non-termination for `a = 1` (claims C5 and C9) -/

theorem termLoop_one (k : Nat) : ∀ (i : Nat) (qs rs : List Nat) (sum : Nat)
    (qp qrest rp rrest : List Nat) (sum' : Nat),
    limbsWf qs → termLoop [1] i k qs rs sum = .ok (qp, qrest, rp, rrest, sum') →
    qp ++ qrest = qs := by
  induction k with
  | zero =>
    intro i qs rs sum qp qrest rp rrest sum' _ h
    rw [termLoop] at h
    cases h
    rfl
  | succ k ih =>
    intro i qs rs sum qp qrest rp rrest sum' hwf h
    cases qs with
    | nil => rw [termLoop] at h; cases h
    | cons qx qt =>
      cases rs with
      | nil => rw [termLoop] at h; cases h
      | cons rx rt =>
        rw [termLoop] at h
        by_cases hi : i < ([1] : List Nat).length
        · have hi0 : i = 0 := by simpa using hi
          subst hi0
          rw [if_pos hi] at h
          rw [if_neg (by decide : ¬ ([1] : List Nat).getD 0 0 = 0)] at h
          match hrec : termLoop [1] (0 + 1) k qt rt
              ((sum + (rx * 2 ^ 32 + qx) / ([1] : List Nat).getD 0 0 % 2 ^ 32) % 2 ^ 64) with
          | .error e => rw [hrec] at h; cases h
          | .ok (qp1, qrest1, rp1, rrest1, sum1) =>
            rw [hrec] at h
            cases h
            have htail := ih _ _ _ _ _ _ _ _ _
              (fun x hx => hwf x (List.mem_cons_of_mem qx hx)) hrec
            have hqx : (rx * 2 ^ 32 + qx) / ([1] : List Nat).getD 0 0 % 2 ^ 32 = qx := by
            -- divisor is 1, and the upper half drops out modulo 2^32
              have h1 : ([1] : List Nat).getD 0 0 = 1 := rfl
              rw [h1, Nat.div_one, mul_comm rx, Nat.mul_add_mod,
                Nat.mod_eq_of_lt (hwf qx (List.mem_cons_self qx qt))]
            rw [List.cons_append, hqx, htail]
        · rw [if_neg hi] at h
          cases h

theorem rowLoop_one (c : Nat) : ∀ (g : Nat) (qs rdone rtodo : List Nat)
    (divisor : Nat) (addition : Bool) (delta : Int)
    (qs' rfin : List Nat) (d' : Int),
    limbsWf qs → rowLoop [1] c g qs rdone rtodo divisor addition delta = .ok (qs', rfin, d') →
    qs' = qs := by
  intro g
  induction g with
  | zero =>
    intro qs rdone rtodo divisor addition delta qs' rfin d' _ h
    rw [rowLoop] at h
    cases h
  | succ g ih =>
    intro qs rdone rtodo divisor addition delta qs' rfin d' hwf h
    cases rtodo with
    | nil =>
      rw [rowLoop] at h
      cases h
      rfl
    | cons rt0 rtodo1 =>
      rw [rowLoop] at h
      match hterm : termLoop [1] 0 c qs (rt0 :: rtodo1) 0 with
      | .error e => rw [hterm] at h; cases h
      | .ok (qp, qrest, rp, rrest, sum) =>
        rw [hterm] at h
        have hpres := termLoop_one c 0 qs (rt0 :: rtodo1) 0 qp qrest rp rrest sum hwf hterm
        match rrest with
        | [] => cases h
        | rodd :: rrest' =>
          dsimp only [] at h
          by_cases hdz : divisor = 0
          · rw [if_pos hdz] at h
            cases h
          · rw [if_neg hdz] at h
            have := ih (qp ++ qrest) _ _ _ _ _ _ _ _ (by rw [hpres]; exact hwf) h
            rw [this, hpres]

theorem slotLoop_one (N c bdvo : Nat) : ∀ (g : Nat) (qdone qtodo rems acc : List Nat)
    (off : Nat) (qf rf af : List Nat),
    limbsWf qtodo → slotLoop [1] N c bdvo g qdone qtodo rems acc off = .ok (qf, rf, af) →
    qf = qdone ++ qtodo := by
  intro g
  induction g with
  | zero =>
    intro qdone qtodo rems acc off qf rf af _ h
    rw [slotLoop] at h
    cases h
  | succ g ih =>
    intro qdone qtodo rems acc off qf rf af hwf h
    cases qtodo with
    | nil =>
      rw [slotLoop] at h
      cases h
      simp
    | cons qt0 qtodo1 =>
      rw [slotLoop] at h
      match hrow : rowLoop [1] c (rems.length + 1) (qt0 :: qtodo1) [] rems bdvo true 0 with
      | .error e => rw [hrow] at h; cases h
      | .ok (qs', rems2, delta) =>
        rw [hrow] at h
        dsimp only [] at h
        have hqs : qs' = qt0 :: qtodo1 :=
          rowLoop_one c _ _ _ _ _ _ _ _ _ _ hwf hrow
        match hacc : accumulate acc delta off with
        | .error e => rw [hacc] at h; cases h
        | .ok acc' =>
          rw [hacc] at h
          dsimp only [] at h
          by_cases hlen : qs'.length < N
          · rw [if_pos hlen] at h
            cases h
          · rw [if_neg hlen] at h
            have hwfdrop : limbsWf (qs'.drop N) := by
              intro x hx
              exact hwf x (by rw [← hqs]; exact List.mem_of_mem_drop hx)
            have hrec := ih _ _ _ _ _ _ _ _ hwfdrop h
            rw [hrec, List.append_assoc, List.take_append_drop, hqs]

theorem process_block_one (N c bdvo bdo : Nat) (q rems acc : List Nat)
    (q1 r1 a1 : List Nat) (hwf : limbsWf q)
    (h : process_block [1] N c bdvo bdo q rems acc = .ok (q1, r1, a1)) :
    q1 = q := by
  rw [process_block] at h
  simpa using slotLoop_one N c bdvo _ _ _ _ _ _ _ _ _ hwf h

theorem innerBody_one (s : LState) (ci next bdvo : Nat)
    (s' : LState) (ci' next' bdvo' : Nat) (hwf : limbsWf s.q)
    (h : innerBody 1 [1] s ci next bdvo = .ok (s', ci', next', bdvo')) :
    s'.q = s.q ∧ next' = count_non_zero_quotents s.q 1 := by
  rw [innerBody] at h
  dsimp only [] at h
  by_cases hci : ci < (innerCol 1 s ci next).length
  · rw [if_pos hci] at h
    match hpb : process_block [1] 1
        (max ((innerCol 1 s ci next).getD ci ⟨0, []⟩).arg_count next) bdvo s.bdo s.q
        ((innerCol 1 s ci next).getD ci ⟨0, []⟩).remainders s.acc with
    | .error e => rw [hpb] at h; cases h
    | .ok (q', rems', acc') =>
      rw [hpb] at h
      dsimp only [] at h
      cases h
      have hq : q' = s.q := process_block_one _ _ _ _ _ _ _ _ _ _ hwf hpb
      exact ⟨hq, by rw [hq]⟩
  · rw [if_neg hci] at h
    cases h

theorem innerLoop_a1_not_done : ∀ (fuel : Nat) (s : LState) (ci next bdvo : Nat),
    limbsWf s.q → count_non_zero_quotents s.q 1 = 1 →
    (innerLoop 1 [1] fuel (s, ci, next, bdvo)).isDone = false := by
  intro fuel
  induction fuel with
  | zero => intros; rfl
  | succ fuel ih =>
    intro s ci next bdvo hwf hcount
    rw [innerLoop]
    match hbody : innerBody 1 [1] s ci next bdvo with
    | .error e => rfl
    | .ok (s', ci', next', bdvo') =>
      obtain ⟨hq, hnext⟩ := innerBody_one s ci next bdvo s' ci' next' bdvo' hwf hbody
      have hnext1 : next' = 1 := by rw [hnext, hcount]
      dsimp only []
      have hcond : ci' < s'.col.length ∨ 0 < next' := Or.inr (by omega)
      rw [if_pos hcond]
      exact ih s' ci' next' bdvo' (by rw [hq]; exact hwf) (by rw [hq, hcount])

theorem outerLoop_a1_not_done : ∀ (gas fuel : Nat) (s : LState),
    limbsWf s.q → count_non_zero_quotents s.q 1 = 1 → s.bdo < s.acc.length →
    (outerLoop 1 [1] gas fuel s).isDone = false := by
  intro gas
  induction gas with
  | zero => intros; rfl
  | succ gas _
  =>
    intro fuel s hwf hcount hlt
    rw [outerLoop, if_neg (by omega)]
    have hin := innerLoop_a1_not_done fuel s 0 1 1 hwf hcount
    match hres : innerLoop 1 [1] fuel (s, 0, 1, 1) with
    | .done s' => rw [hres] at hin; cases hin
    | .ub e => rfl
    | .more => rfl

theorem runProgram_a1_not_done (fuel : Nat) :
    (runProgram [4, 4, 1, 1] fuel).isDone = false := by
  rw [runProgram]
  rw [show (if ([4, 4, 1, 1] : List Nat).isEmpty then default_args else [4, 4, 1, 1])
      = [4, 4, 1, 1] from rfl]
  rw [show read_parameters [4, 4, 1, 1] = .ok ⟨4, 4, [1], [1], [1]⟩ from by decide]
  dsimp only []
  have hout := outerLoop_a1_not_done
    ((initialize_variables ⟨4, 4, [1], [1], [1]⟩).acc.length + 1) fuel
    (initialize_variables ⟨4, 4, [1], [1], [1]⟩)
    (by decide) (by decide) (by decide)
  match hres : outerLoop 1 [1]
      ((initialize_variables ⟨4, 4, [1], [1], [1]⟩).acc.length + 1) fuel
      (initialize_variables ⟨4, 4, [1], [1], [1]⟩) with
  | .done s' => rw [hres] at hout; cases hout
  | .ub e => rfl
  | .more => rfl

/-- C5: on the input `precision=4 d=4 m=1 a=1` (accepted by validation, and
claimed by the spec to print `3.14159...`), the program never terminates: with
`arg_sq = 1` the quotient update `q = ((rem << 32) + q) / 1` leaves the seeded
quotient vector unchanged forever, so `count_non_zero_quotents` always returns
1 and the inner do-while condition `next_arg_count > 0` never becomes false. -/
theorem run_a1_never_terminates : neverDone [4, 4, 1, 1] :=
  runProgram_a1_not_done


/-- C9 counterexample: the input `precision=4 d=4 m=1 a=1` passes argument
validation — it is a run on valid arguments — but the program never exits,
so in particular it does not exit with code 0. -/
theorem valid_args_accepted_but_never_exits :
    read_parameters [4, 4, 1, 1] = .ok ⟨4, 4, [1], [1], [1]⟩ ∧ neverDone [4, 4, 1, 1] :=
  ⟨by decide, runProgram_a1_not_done⟩

/-- C9 (amended): validation accepts every `a = 2^16 - 1` and rejects
`a = 2^16` with exit code 1; an empty term list is rejected with exit code 1;
and a run on valid arguments exits with code 0 whenever the main loop
terminates (which it does not for, e.g., `a = 1`). -/
theorem read_parameters_validation (p d m : Nat)
    (hp : 1 ≤ p) (hd : 1 ≤ d) (hm : m ≤ limb_max) :
    read_parameters [p, d, m, 2 ^ 16 - 1] =
      .ok ⟨p, d, [m], [2 ^ 16 - 1], [(2 ^ 16 - 1) * (2 ^ 16 - 1)]⟩ ∧
    read_parameters [p, d, m, 2 ^ 16] = .exit 1 ∧
    read_parameters [p, d] = .exit 1 ∧
    (∀ (argv : List Nat) (prm : Params) (fuel : Nat) (res : Nat × List Nat × List Nat),
      read_parameters argv = .ok prm → runProgram argv fuel = .done res → res.1 = 0) := by
  refine ⟨read_parameters_single p d m (2 ^ 16 - 1) hp hd hm (by rw [arg_max]), ?_, ?_, ?_⟩
  · have h1 : readPairs [m, 2 ^ 16] ⟨p, d, [], [], []⟩ = .exit 1 := by
      rw [readPairs]
      rw [if_neg (by rw [limb_max] at hm ⊢; omega)]
      dsimp only []
      rw [if_pos (by decide)]
    rw [read_parameters, if_neg (by omega), if_neg (by omega), h1]
  · rw [read_parameters, if_neg (by omega), if_neg (by omega)]
    rfl
  · intro argv prm fuel res hparse hrun
    have hne : argv ≠ [] := by
      intro hc
      rw [hc] at hparse
      cases hparse
    rw [runProgram] at hrun
    have hif : (if argv.isEmpty then default_args else argv) = argv := by
      cases argv with
      | nil => exact absurd rfl hne
      | cons a t => rfl
    rw [hif, hparse] at hrun
    dsimp only [] at hrun
    match hout : outerLoop prm.args.length prm.arg_sq
        ((initialize_variables prm).acc.length + 1) fuel (initialize_variables prm) with
    | .done s =>
      rw [hout] at hrun
      cases hrun
      rfl
    | .ub e => rw [hout] at hrun; cases hrun
    | .more => rw [hout] at hrun; cases hrun

/-- Witness for the amended C9 theorem at `p = d = m = 1`. -/
theorem read_parameters_validation_witness :
    read_parameters [1, 1, 1, 2 ^ 16 - 1] =
      .ok ⟨1, 1, [1], [2 ^ 16 - 1], [(2 ^ 16 - 1) * (2 ^ 16 - 1)]⟩ ∧
    read_parameters [1, 1, 1, 2 ^ 16] = .exit 1 ∧
    read_parameters [1, 1] = .exit 1 ∧
    (∀ (argv : List Nat) (prm : Params) (fuel : Nat) (res : Nat × List Nat × List Nat),
      read_parameters argv = .ok prm → runProgram argv fuel = .done res → res.1 = 0) :=
  read_parameters_validation 1 1 1 (by decide) (by decide) (by decide)

/-- C10: argument validation accepts `a = 0` (it only rejects `a > 2^16 - 1`),
so `precision=1 d=4 m=1 a=0` is accepted with `arg_sq[0] = 0`, and the run
immediately evaluates `n / arg_sq[i]` and `n % arg_sq[i]` with
`arg_sq[i] = 0` in `process_block` — a division by zero. -/
theorem arg_zero_accepted_div_by_zero :
    read_parameters [1, 4, 1, 0] = .ok ⟨1, 4, [1], [0], [0]⟩ ∧
    runProgram [1, 4, 1, 0] 1 = .ub .divZero := by decide

/-- C6: `print_integer_part` emits `acc[W-1] % 10` before dividing by 10, so
for the two-limb integer value `2^32` (top `W` limbs `0,...,0,1,0`) it prints
`4294967290` although the value is `4294967296`: the emitted digit string
re-parsed in base 10 does not reproduce the top `W` limbs. -/
theorem print_integer_part_wrong_digits :
    limbsVal ((List.replicate 62 0 ++ [1, 0] ++ List.replicate 64 0).take 64) = 2 ^ 32 ∧
    (print_integer_part (List.replicate 62 0 ++ [1, 0] ++ List.replicate 64 0) 20).1 =
      [4, 2, 9, 4, 9, 6, 7, 2, 9, 0] ∧
    (Nat.ofDigits 10 (List.reverse [4, 2, 9, 4, 9, 6, 7, 2, 9, 0]) == 2 ^ 32) = false := by
  decide

/-- C7 counterexample: an accumulator of the minimal program shape
(`L = 128` limbs) whose last fractional limb is 1 makes
`print_fractional_part` emit 576 digits, exceeding the claimed bound
`(L - W) * 9 - 2 = 574`. -/
theorem print_fractional_part_budget_exceeded :
    574 < (print_fractional_part (List.replicate 127 0 ++ [1]) 70).length ∧
    ((List.replicate 127 (0 : Nat) ++ [1]).length - block_width) * 9 - 2 = 574 := by
  decide

theorem extract9_length (v : Nat) : (extract9 v).length = 9 := rfl

theorem printFracLoop_length (dec : Nat) :
    ∀ (gas : Nat) (acc : List Nat) (fnz : Nat) (ds : List Nat),
    ds.length % 9 = 0 → ds.length ≤ dec + 9 →
    (printFracLoop dec gas acc fnz ds).length % 9 = 0 ∧
    (printFracLoop dec gas acc fnz ds).length ≤ dec + 9 := by
  intro gas
  induction gas with
  | zero =>
    intro acc fnz ds hmod hle
    exact ⟨hmod, hle⟩
  | succ gas ih =>
    intro acc fnz ds hmod hle
    rw [printFracLoop]
    by_cases hcond : 0 < fnz ∧ ds.length ≤ dec
    · rw [if_pos hcond]
      exact ih _ _ _ (by rw [List.length_append, extract9_length]; omega)
        (by rw [List.length_append, extract9_length]; omega)
    · rw [if_neg hcond]
      exact ⟨hmod, hle⟩

/-- C7 (amended): `print_fractional_part` emits at most `(L - W) * 9` digits:
the loop stops as soon as the emitted count exceeds the budget
`(L - W) * 9 - 2`, and since digits are appended 9 at a time the final count
can reach `(L - W) * 9` (it also stops early once every fractional limb is
zero). -/
theorem print_fractional_part_length_bound (acc : List Nat) (gas : Nat)
    (hlen : block_width < acc.length) :
    (print_fractional_part acc gas).length ≤ (acc.length - block_width) * 9 := by
  obtain ⟨hmod, hle⟩ := printFracLoop_length ((acc.length - block_width) * 9 - 2) gas acc
    (findNZdown acc (acc.length - 1)) [] (by simp) (by simp)
  rw [print_fractional_part]
  rw [block_width] at hlen ⊢
  rw [block_width] at hmod hle
  omega

/-- Witness for the amended C7 theorem on a 65-limb accumulator. -/
theorem print_fractional_part_length_bound_witness :
    (print_fractional_part (List.replicate 65 0) 1).length ≤
      ((List.replicate 65 (0 : Nat)).length - block_width) * 9 :=
  print_fractional_part_length_bound (List.replicate 65 0) 1 (by decide)
